import Mathlib

/-!
Verification development for the `FileFetcher` module of the deno CLI
(`src/cli/file_fetcher.rs`): a shallow embedding of its data model and
operations, followed by theorems about the embedded program.

Modelling conventions:
* URLs (`ModuleSpecifier`) are represented by their serialized string; URL
  accessors (`scheme`, `path`, fragment/query removal) are string operations
  that agree with the `url` crate on well-formed absolute URLs (the only
  values a `ModuleSpecifier` can hold).  `Url::to_file_path` agrees with
  `url.path()` on unix for the simple `file:///...` URLs used here.
* Byte sequences are `List Nat` (one entry per byte).
* The persistent HTTP cache and the in-process file cache are association
  lists queried through `get`; `set`/`insert` shadow older entries, which is
  observationally the overwrite semantics of the originals.
* External collaborators that live outside `src/cli/file_fetcher.rs`
  (filesystem, HTTP transport `fetch_once`, `resolve_import`, permission
  checks) are parameters of the embedded operations.
* The `i64` redirect budget guarded by `redirect_limit < 0` is realized
  structurally: a call with budget `l` performs exactly `(l + 1).toNat`
  permitted steps, and the fuel-`0` case is exactly the `redirect_limit < 0`
  early return of the source (when `l < 0`, `(l + 1).toNat = 0`, and a
  recursive call with budget `l - 1` has fuel `l.toNat`, one less).
-/

deriving instance DecidableEq for Except

namespace Deno

/-- Characters of the list up to (excluding) the first occurrence of `c`. -/
def takeUntilChar (c : Char) : List Char → List Char
  | [] => []
  | x :: xs => if x == c then [] else x :: takeUntilChar c xs

/-- Remove the leading run `pre` from `l`; `none` when `l` does not start with `pre`. -/
def dropPre : List Char → List Char → Option (List Char)
  | [], l => some l
  | _ :: _, [] => none
  | p :: ps, x :: xs => if x == p then dropPre ps xs else none

/-- Whether `l` ends with `suf`. -/
def listEndsWith (l suf : List Char) : Bool :=
  l.reverse.take suf.length == suf.reverse

/-- Split a character list at every occurrence of `c` (Rust `str::split` semantics:
empty pieces are preserved, the result is never empty). -/
def splitOnChar (c : Char) : List Char → List (List Char)
  | [] => [[]]
  | x :: xs =>
    if x == c then [] :: splitOnChar c xs
    else
      match splitOnChar c xs with
      | [] => [[x]]
      | y :: ys => (x :: y) :: ys

def isAsciiWhitespace (c : Char) : Bool :=
  c == ' ' || c == '\t' || c == '\n' || c == '\r'

/-- Rust `str::trim` on the character level (ASCII whitespace; the header values
this program trims use only ASCII whitespace). -/
def trimChars (l : List Char) : List Char :=
  ((l.dropWhile isAsciiWhitespace).reverse.dropWhile isAsciiWhitespace).reverse

/-- Rust `str::to_lowercase` on the character level (the MIME tokens compared
here are ASCII, where `Char.toLower` agrees with it). -/
def lowerChars (l : List Char) : List Char := l.map Char.toLower

/-- A byte sequence. -/
abbrev Bytes := List Nat

/-- A response-header mapping (the `HashMap<String, String>` of the source),
queried only through `get`. -/
abbrev Headers := List (String × String)

def Headers.get (h : Headers) (k : String) : Option String :=
  (h.find? (fun p => p.1 == k)).map (fun p => p.2)

/-- The last `/`-separated component of a path (Rust `Path::file_name` for
paths without trailing separators). -/
def fileName (p : String) : String :=
  ((splitOnChar '/' p.toList).getLastD []).asString

/-- Rust's file-name splitting at the last dot: `(file_stem, extension)`.
`".."` and names whose only dot is leading have no extension; a trailing dot
yields the empty extension. -/
def splitFileAtDot (s : String) : String × Option String :=
  let cs := s.toList
  if cs == ['.', '.'] then (s, none)
  else
    let revExt := cs.reverse.takeWhile (fun c => c ≠ '.')
    if revExt.length == cs.length then (s, none)
    else
      let before := cs.take (cs.length - revExt.length - 1)
      if before.isEmpty then (s, none)
      else (before.asString, some revExt.reverse.asString)

/-- Rust `Path::extension` of a file name. -/
def extension (s : String) : Option String := (splitFileAtDot s).2

/-- Rust `Path::file_stem` of a file name. -/
def fileStem (s : String) : String := (splitFileAtDot s).1

/-- `Url::scheme`: the serialized URL up to the first `:`. -/
def urlScheme (s : String) : String := (takeUntilChar ':' s.toList).asString

/-- `Url::path`: the part of the serialized URL from the first `/` after
`scheme://`. -/
def urlPath (s : String) : String :=
  match dropPre (urlScheme s ++ "://").toList s.toList with
  | none => ""
  | some rest => (rest.dropWhile (fun c => c ≠ '/')).asString

/-- `Url::to_file_path` on unix for `file:///...` URLs: the path after
`file://` (requiring an empty host, i.e. the next character is `/`). -/
def filePathOf (specifier : String) : Option String :=
  match dropPre "file://".toList specifier.toList with
  | some rest => if rest.head? == some '/' then some rest.asString else none
  | none => none

/-- `Url::set_fragment(None)` on the serialized URL: keep everything before
the first `#`. -/
def stripFragment (s : String) : String := (takeUntilChar '#' s.toList).asString

/-- `Url::set_query(None)` on a fragment-free serialized URL: keep everything
before the first `?`. -/
def stripQuery (s : String) : String := (takeUntilChar '?' s.toList).asString

/-- Rust `Path::parent` for `/`-separated path strings (`none` exactly when
`PathBuf::pop` returns `false`): drop trailing separators, then the last
component, then the separators before it; a lone component has parent `""`,
an absolute single component has parent `"/"`. -/
def pathParentL (cs : List Char) : Option (List Char) :=
  match cs.reverse.dropWhile (fun c => c == '/') with
  | [] => none
  | _ :: rest =>
    match rest.dropWhile (fun c => !(c == '/')) with
    | [] => some []
    | c :: cs2 =>
      match (c :: cs2).dropWhile (fun c => c == '/') with
      | [] => some ['/']
      | pre => some pre.reverse

theorem dropWhileLengthLe (p : α → Bool) (l : List α) :
    (l.dropWhile p).length ≤ l.length := by
  induction l with
  | nil => simp
  | cons a l ih =>
    simp only [List.dropWhile]
    split
    · exact Nat.le_succ_of_le ih
    · simp

theorem pathParentL_length {cs p : List Char} (h : pathParentL cs = some p) :
    p.length < cs.length := by
  unfold pathParentL at h
  split at h
  · exact absurd h (by simp)
  next a rest h1 =>
    have hrest : rest.length + 1 ≤ cs.length := by
      have h2 := dropWhileLengthLe (fun c => c == '/') cs.reverse
      rw [h1] at h2; simpa using h2
    split at h
    next h2 =>
      simp only [Option.some.injEq] at h
      subst h; simp; omega
    next c cs2 h2 =>
      have hsep : cs2.length + 1 ≤ rest.length := by
        have h3 := dropWhileLengthLe (fun c => !(c == '/')) rest
        rw [h2] at h3; simpa using h3
      split at h
      next h3 =>
        simp only [Option.some.injEq] at h
        subst h; simp; omega
      next d ds h3 =>
        have h4 := dropWhileLengthLe (fun c => c == '/') (c :: cs2)
        simp only [List.length_cons] at h4
        simp only [Option.some.injEq] at h
        subst h; simp; omega

/-- The source's `loop { if list.contains(path) return false; if !path.pop() break }`,
with the (provably sufficient, see `shouldUseGo_fuel`) iteration bound made
explicit so that the definition stays structural. -/
def shouldUseGo (list : List String) : Nat → List Char → Bool
  | 0, _ => true
  | fuel + 1, cs =>
    if list.contains cs.asString then false
    else
      match pathParentL cs with
      | none => true
      | some p => shouldUseGo list fuel p

/-- The fuel bound in `shouldUseGo` is irrelevant as soon as it exceeds the
length of the path: the parent chain strictly shrinks, so the loop always
exits through `pathParentL = none` before the fuel runs out. -/
theorem shouldUseGo_fuel (list : List String) :
    ∀ (fuel₁ fuel₂ : Nat) (cs : List Char), cs.length < fuel₁ → cs.length < fuel₂ →
      shouldUseGo list fuel₁ cs = shouldUseGo list fuel₂ cs := by
  intro fuel₁
  induction fuel₁ with
  | zero => intro fuel₂ cs h1; omega
  | succ n ih =>
    intro fuel₂ cs h1 h2
    cases fuel₂ with
    | zero => omega
    | succ m =>
      simp only [shouldUseGo]
      cases hlc : list.contains cs.asString with
      | true => simp
      | false =>
        simp only [Bool.false_eq_true, if_neg]
        cases hp : pathParentL cs with
        | none => rfl
        | some p =>
          have hl := pathParentL_length hp
          exact ih m p (by omega) (by omega)

/-- Indicates how cached source files should be handled (`CacheSetting`). -/
inductive CacheSetting
  | Only
  | ReloadAll
  | ReloadSome (list : List String)
  | Use
  deriving DecidableEq, Repr

/-- `CacheSetting::should_use`: whether the cache may be used for a specifier. -/
def CacheSetting.should_use : CacheSetting → String → Bool
  | .ReloadAll, _ => false
  | .Use, _ => true
  | .Only, _ => true
  | .ReloadSome list, specifier =>
    let url := stripFragment specifier
    if list.contains url then false
    else
      let path := (stripQuery url).toList
      shouldUseGo list (path.length + 1) path

/-- The resolved media type for a file. -/
inductive MediaType
  | JavaScript
  | JSX
  | TypeScript
  | Dts
  | TSX
  | Json
  | Wasm
  | Unknown
  deriving DecidableEq, Repr

/-- Modelled from the spec: `MediaType::from` (crate module `media_type`, not
under `src/`) — `classify_by_path`, classification by the path extension alone:
`ts` → TypeScript (TypeDeclaration when the stem ends in `.d`), `tsx` → TSX,
`jsx` → JSX, `js`/`mjs`/`cjs` → JavaScript, `json` → Json, `wasm` → Wasm,
anything else or no extension → Unknown. -/
def MediaType.fromSpecifier (specifier : String) : MediaType :=
  let name := fileName (urlPath specifier)
  match extension name with
  | some "ts" =>
    if listEndsWith (fileStem name).toList ".d".toList then .Dts else .TypeScript
  | some "tsx" => .TSX
  | some "js" => .JavaScript
  | some "jsx" => .JSX
  | some "mjs" => .JavaScript
  | some "cjs" => .JavaScript
  | some "json" => .Json
  | some "wasm" => .Wasm
  | _ => .Unknown

/-- Errors raised by the embedded program.  `panicUnwrapNone` is not a Rust
error value: it marks the process abort of the `.unwrap()` on the
not-modified branch of `fetch_remote` (a panic, not a returned error). -/
inductive FetchError
  | tooManyRedirects
  | notFoundInCache (specifier : String)
  | noRemote (specifier : String)
  | unsupportedScheme (scheme : String)
  | permissionDenied (specifier : String)
  | invalidFilePath (specifier : String)
  | decodeError
  | unsupportedCharset (charset : String)
  | ioError
  | resolveError
  | transportError
  | panicUnwrapNone
  deriving DecidableEq, Repr

/-- Strict UTF-8 decoding (`String::from_utf8`) as a one-byte-per-step
automaton.  The state is `none` between characters and
`some (acc, need, minv)` inside a multi-byte sequence (`acc` the code point
so far, `need` the continuation bytes still expected, `minv` the smallest
code point the sequence may legally encode).  Rejects stray or missing
continuation bytes, overlong forms, surrogates and out-of-range code points;
keeps a BOM as the character U+FEFF. -/
def utf8DecodeAux : Option (Nat × Nat × Nat) → List Nat → Option (List Char)
  | none, [] => some []
  | some _, [] => none
  | none, b :: rest =>
    if b < 0x80 then (utf8DecodeAux none rest).map (fun cs => Char.ofNat b :: cs)
    else if b < 0xC2 then none
    else if b < 0xE0 then utf8DecodeAux (some (b - 0xC0, 1, 0x80)) rest
    else if b < 0xF0 then utf8DecodeAux (some (b - 0xE0, 2, 0x800)) rest
    else if b < 0xF5 then utf8DecodeAux (some (b - 0xF0, 3, 0x10000)) rest
    else none
  | some (acc, need, minv), b :: rest =>
    if 0x80 ≤ b ∧ b < 0xC0 then
      let acc2 := acc * 0x40 + (b - 0x80)
      if need = 1 then
        if minv ≤ acc2 ∧ acc2 < 0x110000 ∧ ¬(0xD800 ≤ acc2 ∧ acc2 < 0xE000) then
          (utf8DecodeAux none rest).map (fun cs => Char.ofNat acc2 :: cs)
        else none
      else utf8DecodeAux (some (acc2, need - 1, minv)) rest
    else none

def utf8Decode (bytes : List Nat) : Option (List Char) := utf8DecodeAux none bytes

/-- Strict UTF-16 decoding (little endian when `le`): pairs bytes into code
units, combines surrogate pairs, rejects odd lengths and lone surrogates;
keeps a BOM as the character U+FEFF. -/
def utf16Decode (le : Bool) : List Nat → Option (List Char)
  | [] => some []
  | [_] => none
  | a :: b :: rest =>
    let u := if le then b * 256 + a else a * 256 + b
    if u < 0xD800 ∨ 0xE000 ≤ u then
      (utf16Decode le rest).map (fun cs => Char.ofNat u :: cs)
    else if u < 0xDC00 then
      match rest with
      | c :: d :: rest2 =>
        let v := if le then d * 256 + c else c * 256 + d
        if 0xDC00 ≤ v ∧ v < 0xE000 then
          (utf16Decode le rest2).map
            (fun cs => Char.ofNat (0x10000 + (u - 0xD800) * 0x400 + (v - 0xDC00)) :: cs)
        else none
      | _ => none
    else none

/-- Modelled from the spec: `text_encoding::detect_charset` (module not under
`src/`) — auto-detect the charset from a leading byte-order mark when present
(UTF-8 / UTF-16LE / UTF-16BE signatures), else assume UTF-8. -/
def detect_charset (bytes : Bytes) : String :=
  if bytes.take 2 = [0xFE, 0xFF] then "utf-16be"
  else if bytes.take 2 = [0xFF, 0xFE] then "utf-16le"
  else if bytes.take 3 = [0xEF, 0xBB, 0xBF] then "utf-8"
  else "utf-8"

/-- Modelled from the spec: `text_encoding::convert_to_utf8` (module not under
`src/`) — convert bytes of the declared charset to text, failing with a decode
error when the bytes are invalid for that charset; unknown labels are
rejected.  A BOM character is kept in the text, as the source's tests for
encoded fetches expect. -/
def convert_to_utf8 (bytes : Bytes) (charset : String) : Except FetchError String :=
  if charset = "utf-8" then
    match utf8Decode bytes with
    | some cs => .ok cs.asString
    | none => .error .decodeError
  else if charset = "utf-16le" then
    match utf16Decode true bytes with
    | some cs => .ok cs.asString
    | none => .error .decodeError
  else if charset = "utf-16be" then
    match utf16Decode false bytes with
    | some cs => .ok cs.asString
    | none => .error .decodeError
  else .error (.unsupportedCharset charset)

/-- `get_source_from_bytes`: decode with the declared charset when present,
else strictly as UTF-8 (`String::from_utf8`). -/
def get_source_from_bytes (bytes : Bytes) (maybeCharset : Option String) :
    Except FetchError String :=
  match maybeCharset with
  | some charset => convert_to_utf8 bytes charset
  | none =>
    match utf8Decode bytes with
    | some cs => .ok cs.asString
    | none => .error .decodeError

/-- `strip_shebang`: when the text starts with `#!`, drop everything before
the first newline (the newline itself is kept, exactly as
`value.split_at(mid)` keeps it in the right half); with no newline, clear the
text; otherwise return it unchanged. -/
def strip_shebang (value : String) : String :=
  match value.toList with
  | '#' :: '!' :: _ =>
    if value.toList.contains '\n' then
      (value.toList.dropWhile (fun c => c ≠ '\n')).asString
    else ""
  | _ => value

def SUPPORTED_SCHEMES : List String := ["http", "https", "file"]

/-- `get_validated_scheme`: accept only the supported schemes. -/
def get_validated_scheme (specifier : String) : Except FetchError String :=
  let scheme := urlScheme specifier
  if SUPPORTED_SCHEMES.contains scheme then .ok scheme
  else .error (.unsupportedScheme scheme)

/-- `map_js_like_extension`: refine a MIME-derived default media type by the
path extension.  (`url.to_file_path()` of the file scheme agrees with
`url.path()` on unix for the URLs in scope, so a single path extraction
serves both branches of the source.) -/
def map_js_like_extension (specifier : String) (default : MediaType) : MediaType :=
  let name := fileName (urlPath specifier)
  match extension name with
  | none => default
  | some "jsx" => MediaType.JSX
  | some "tsx" => MediaType.TSX
  | some "ts" =>
    if default = MediaType.TypeScript then
      if listEndsWith (fileStem name).toList ".d".toList then MediaType.Dts
      else default
    else default
  | some _ => default

/-- Find the first `;`-separated segment that, trimmed, starts with
`charset=`, and return the rest of it (the source's
`.map(str::trim).find_map(|s| s.strip_prefix("charset="))`). -/
def findCharsetParam : List (List Char) → Option String
  | [] => none
  | p :: rest =>
    match dropPre "charset=".toList (trimChars p) with
    | some r => some r.asString
    | none => findCharsetParam rest

/-- `map_content_type`: media type and optional declared charset from the
specifier and the value of a content-type header. -/
def map_content_type (specifier : String) (maybeContentType : Option String) :
    MediaType × Option String :=
  match maybeContentType with
  | none => (MediaType.fromSpecifier specifier, none)
  | some contentType =>
    let parts := splitOnChar ';' contentType.toList
    let ct := (lowerChars (trimChars (parts.headD []))).asString
    let mediaType :=
      if ct = "application/typescript" ∨ ct = "text/typescript" ∨
          ct = "video/vnd.dlna.mpeg-tts" ∨ ct = "video/mp2t" ∨
          ct = "application/x-typescript" then
        map_js_like_extension specifier MediaType.TypeScript
      else if ct = "application/javascript" ∨ ct = "text/javascript" ∨
          ct = "application/ecmascript" ∨ ct = "text/ecmascript" ∨
          ct = "application/x-javascript" ∨ ct = "application/node" then
        map_js_like_extension specifier MediaType.JavaScript
      else if ct = "application/json" ∨ ct = "text/json" then MediaType.Json
      else if ct = "application/wasm" then MediaType.Wasm
      else if ct = "text/plain" ∨ ct = "application/octet-stream" then
        MediaType.fromSpecifier specifier
      else MediaType.Unknown
    (mediaType, findCharsetParam parts.tail)

/-- A structure representing a source file (`File`).  The source's `local`
field is called `localPath` here (`local` is reserved in Lean). -/
structure File where
  localPath : String
  maybe_types : Option String
  media_type : MediaType
  source : String
  specifier : String
  deriving DecidableEq, Repr

/-- The in-process `FileCache` (specifier → File), queried through `get`;
`insert` shadows older entries, the overwrite semantics of the map. -/
abbrev FileCache := List (String × File)

def FileCache.get (c : FileCache) (s : String) : Option File :=
  (c.find? (fun e => e.1 == s)).map (fun e => e.2)

def FileCache.insert (c : FileCache) (s : String) (f : File) : FileCache :=
  (s, f) :: c

/-- The persistent `HttpCache` (specifier → headers and body), queried through
`get`; `set` shadows older entries, the overwrite semantics of the store.
A `get` miss is the io-NotFound case of the source's `http_cache.get`. -/
abbrev HttpCache := List (String × Headers × Bytes)

def HttpCache.get (c : HttpCache) (s : String) : Option (Headers × Bytes) :=
  (c.find? (fun e => e.1 == s)).map (fun e => e.2)

def HttpCache.set (c : HttpCache) (s : String) (h : Headers) (b : Bytes) : HttpCache :=
  (s, h, b) :: c

instance headersDecEq : DecidableEq Headers := inferInstance

instance httpCacheDecEq : DecidableEq HttpCache := inferInstance

instance fileCacheDecEq : DecidableEq FileCache := inferInstance

/-- The result of a single pass of the HTTP transport (`FetchOnceResult`). -/
inductive FetchOnceResult
  | NotModified
  | Redirect (url : String) (headers : Headers)
  | Code (bytes : Bytes) (headers : Headers)
  deriving DecidableEq, Repr

/-- The HTTP transport `fetch_once` (external collaborator `http_util`):
a single request for a specifier with an optional cached etag. -/
abbrev Transport := String → Option String → Except FetchError FetchOnceResult

/-- `ModuleSpecifier::resolve_import` (external collaborator `deno_core`):
resolve a location header against the specifier it was served for. -/
abbrev ResolveImport := String → String → Except FetchError String

/-- The permission check (external collaborator): `check_specifier` either
passes (`true`) or yields a permission error. -/
abbrev Permissions := String → Bool

/-- The local filesystem (external collaborator): `fs::read`. -/
abbrev FileSystem := String → Except FetchError Bytes

/-- The construction-time configuration of a `FileFetcher`. -/
structure FetcherConfig where
  allow_remote : Bool
  cache_setting : CacheSetting
  deriving DecidableEq, Repr

/-- Modelled from the spec: `HttpCache::get_cache_filename` /
`PersistentCache.locate` (module not under `src/`) — a deterministic pure
mapping from a specifier to its cache-store path. -/
def get_cache_filename (specifier : String) : String := "deps/" ++ specifier

/-- `FileFetcher::build_remote_file`: derive the local cache path, classify by
content type, decode with the derived charset, strip the shebang, and carry
the `x-typescript-types` header. -/
def build_remote_file (specifier : String) (bytes : Bytes) (headers : Headers) :
    Except FetchError File :=
  let mt := map_content_type specifier (Headers.get headers "content-type")
  match get_source_from_bytes bytes mt.2 with
  | .error e => .error e
  | .ok source =>
    .ok { localPath := get_cache_filename specifier
          maybe_types := Headers.get headers "x-typescript-types"
          media_type := mt.1
          source := strip_shebang source
          specifier := specifier }

/-- `FileFetcher::fetch_cached` with the redirect budget realized as fuel
(fuel `0` is exactly the `redirect_limit < 0` early return, see the header
comment): resolve a chain of persisted redirect records without network
access. -/
def fetch_cached_fuel (ri : ResolveImport) (http : HttpCache) :
    Nat → String → Except FetchError (Option File)
  | 0, _ => .error .tooManyRedirects
  | fuel + 1, specifier =>
    match HttpCache.get http specifier with
    | none => .ok none
    | some (headers, bytes) =>
      match Headers.get headers "location" with
      | some redirectTo =>
        match ri redirectTo specifier with
        | .error e => .error e
        | .ok redirect => fetch_cached_fuel ri http fuel redirect
      | none =>
        match build_remote_file specifier bytes headers with
        | .error e => .error e
        | .ok file => .ok (some file)

/-- `FileFetcher::fetch_cached` at an `i64` redirect budget. -/
def fetch_cached (ri : ResolveImport) (http : HttpCache) (specifier : String)
    (redirect_limit : Int) : Except FetchError (Option File) :=
  fetch_cached_fuel ri http (redirect_limit + 1).toNat specifier

/-- `FileFetcher::fetch_remote` with the redirect budget realized as fuel
(fuel `0` is exactly the `redirect_limit < 0` early return): permission
check, cached-chain attempt, cache-only guard, then one transport pass that
yields not-modified, a redirect (persist an empty-body record for the current
specifier, recurse on the target with one budget step fewer) or content
(persist it and build the File).  The returned `HttpCache` reflects the
persisted records, also on the error paths. -/
def fetch_remote_fuel (t : Transport) (ri : ResolveImport) (cfg : FetcherConfig)
    (perm : Permissions) :
    Nat → HttpCache → String → Except FetchError File × HttpCache
  | 0, http, _ => (.error .tooManyRedirects, http)
  | fuel + 1, http, specifier =>
    if perm specifier then
      match (if CacheSetting.should_use cfg.cache_setting specifier then
               fetch_cached_fuel ri http (fuel + 1) specifier
             else .ok none) with
      | .ok (some file) => (.ok file, http)
      | .error e => (.error e, http)
      | .ok none =>
        if cfg.cache_setting = CacheSetting.Only then
          (.error (.notFoundInCache specifier), http)
        else
          let cachedEtag :=
            match HttpCache.get http specifier with
            | some (headers, _) => Headers.get headers "etag"
            | none => none
          match t specifier cachedEtag with
          | .error e => (.error e, http)
          | .ok FetchOnceResult.NotModified =>
            match fetch_cached_fuel ri http 11 specifier with
            | .ok (some file) => (.ok file, http)
            | .ok none => (.error .panicUnwrapNone, http)
            | .error e => (.error e, http)
          | .ok (FetchOnceResult.Redirect redirectUrl headers) =>
            fetch_remote_fuel t ri cfg perm fuel
              (HttpCache.set http specifier headers []) redirectUrl
          | .ok (FetchOnceResult.Code bytes headers) =>
            let http2 := HttpCache.set http specifier headers bytes
            match build_remote_file specifier bytes headers with
            | .ok file => (.ok file, http2)
            | .error e => (.error e, http2)
    else (.error (.permissionDenied specifier), http)

/-- `FileFetcher::fetch_remote` at an `i64` redirect budget. -/
def fetch_remote (t : Transport) (ri : ResolveImport) (cfg : FetcherConfig)
    (perm : Permissions) (http : HttpCache) (specifier : String)
    (redirect_limit : Int) : Except FetchError File × HttpCache :=
  fetch_remote_fuel t ri cfg perm (redirect_limit + 1).toNat http specifier

/-- `fetch_local`: resolve the file path, read the bytes, decode with the
detected charset, strip the shebang and classify by path. -/
def fetch_local (fs : FileSystem) (specifier : String) : Except FetchError File :=
  match filePathOf specifier with
  | none => .error (.invalidFilePath specifier)
  | some localPath =>
    match fs localPath with
    | .error e => .error e
    | .ok bytes =>
      match get_source_from_bytes bytes (some (detect_charset bytes)) with
      | .error e => .error e
      | .ok source =>
        .ok { localPath := localPath
              maybe_types := none
              media_type := MediaType.fromSpecifier specifier
              source := strip_shebang source
              specifier := specifier }

/-- The dispatch step of `FileFetcher::fetch` (the `let result = if is_local
{ ... } else if ... { ... } else { ... }` of the source): local read,
remote-disabled error, or a remote fetch with the initial budget 10. -/
def fetchDispatch (fs : FileSystem) (t : Transport) (ri : ResolveImport)
    (cfg : FetcherConfig) (perm : Permissions) (http : HttpCache)
    (scheme specifier : String) : Except FetchError File × HttpCache :=
  if scheme = "file" then (fetch_local fs specifier, http)
  else if !cfg.allow_remote then (.error (.noRemote specifier), http)
  else fetch_remote_fuel t ri cfg perm 11 http specifier

/-- `FileFetcher::fetch`: validate the scheme, run the permission check, then
serve from the in-memory cache or dispatch to the local/remote path; a
success is inserted into the in-memory cache keyed by the requested
specifier.  The result carries the final in-memory and persistent caches. -/
def fetch (fs : FileSystem) (t : Transport) (ri : ResolveImport)
    (cfg : FetcherConfig) (perm : Permissions) (cache : FileCache)
    (http : HttpCache) (specifier : String) :
    Except FetchError File × FileCache × HttpCache :=
  match get_validated_scheme specifier with
  | .error e => (.error e, cache, http)
  | .ok scheme =>
    if perm specifier then
      match FileCache.get cache specifier with
      | some file => (.ok file, cache, http)
      | none =>
        match fetchDispatch fs t ri cfg perm http scheme specifier with
        | (.ok file, http2) => (.ok file, FileCache.insert cache specifier file, http2)
        | (.error e, http2) => (.error e, cache, http2)
    else (.error (.permissionDenied specifier), cache, http)

/-- `FileFetcher::get_cached`: a read-only in-memory cache lookup. -/
def get_cached (cache : FileCache) (specifier : String) : Option File :=
  FileCache.get cache specifier

/-- `FileFetcher::insert_cached`: seed the in-memory cache with a
caller-supplied File, keyed by the File's own specifier. -/
def insert_cached (cache : FileCache) (file : File) : FileCache :=
  FileCache.insert cache file.specifier file

theorem FileCache.get_insert_self (c : FileCache) (s : String) (f : File) :
    FileCache.get (FileCache.insert c s f) s = some f := by
  simp [FileCache.get, FileCache.insert, List.find?]

theorem FileCache.get_insert_ne (c : FileCache) (s : String) (f : File)
    (s2 : String) (h : s2 ≠ s) :
    FileCache.get (FileCache.insert c s f) s2 = FileCache.get c s2 := by
  simp only [FileCache.get, FileCache.insert, List.find?]
  have : (s == s2) = false := by simpa using fun he => h he.symm
  simp [this]

theorem HttpCache.get_set_self (c : HttpCache) (s : String) (h : Headers) (b : Bytes) :
    HttpCache.get (HttpCache.set c s h b) s = some (h, b) := by
  simp [HttpCache.get, HttpCache.set, List.find?]

theorem HttpCache.get_set_ne (c : HttpCache) (s : String) (h : Headers) (b : Bytes)
    (s2 : String) (hne : s2 ≠ s) :
    HttpCache.get (HttpCache.set c s h b) s2 = HttpCache.get c s2 := by
  simp only [HttpCache.get, HttpCache.set, List.find?]
  have : (s == s2) = false := by simpa using fun he => hne he.symm
  simp [this]

/-- The specifier a redirect hop points at: the next hop when one exists,
else the chain's final (content) specifier. -/
def chainNext (rest : List (String × Headers)) (final : String) : String :=
  match rest with
  | [] => final
  | (s, _) :: _ => s

/-- A persisted-style description of a transport redirect chain: each hop's
transport response (with no cached etag) is a redirect to the next hop whose
headers carry a `location` that `resolve_import` resolves back to that same
next hop — the coherence `fetch_once` guarantees by construction. -/
def IsRedirectChain (t : Transport) (ri : ResolveImport) :
    List (String × Headers) → String → Prop
  | [], _ => True
  | (s, h) :: rest, final =>
    t s none = .ok (.Redirect (chainNext rest final) h) ∧
    (∃ loc, Headers.get h "location" = some loc ∧ ri loc s = .ok (chainNext rest final)) ∧
    IsRedirectChain t ri rest final

/-- The specifiers of the redirect hops of a chain. -/
def chainSpecs (hops : List (String × Headers)) : List String := hops.map Prod.fst

/-- The persistent-cache records a full chain fetch writes: an empty-body
record per redirect hop, then the content record for the final specifier. -/
def persistChain (cache : HttpCache) :
    List (String × Headers) → String → Headers → Bytes → HttpCache
  | [], final, hF, bytes => HttpCache.set cache final hF bytes
  | (s, h) :: rest, final, hF, bytes =>
    persistChain (HttpCache.set cache s h []) rest final hF bytes

theorem persistChain_get_of_not_mem (hops : List (String × Headers))
    (final : String) (hF : Headers) (bytes : Bytes) :
    ∀ (cache : HttpCache) (x : String), x ∉ chainSpecs hops → x ≠ final →
      HttpCache.get (persistChain cache hops final hF bytes) x = HttpCache.get cache x := by
  induction hops with
  | nil =>
    intro cache x _ hxf
    simp only [persistChain]
    exact HttpCache.get_set_ne cache final hF bytes x hxf
  | cons hop rest ih =>
    intro cache x hx hxf
    obtain ⟨s, h⟩ := hop
    have hxs : x ≠ s := by
      intro he; exact hx (by simp [chainSpecs, he])
    have hxr : x ∉ chainSpecs rest := by
      intro hm; exact hx (by simp [chainSpecs] at hm ⊢; exact Or.inr hm)
    simp only [persistChain]
    rw [ih (HttpCache.set cache s h []) x hxr hxf]
    exact HttpCache.get_set_ne cache s h [] x hxs

theorem chainRemoteOk (t : Transport) (ri : ResolveImport) (cfg : FetcherConfig)
    (perm : Permissions) (hOnly : cfg.cache_setting ≠ .Only)
    (final : String) (bytes : Bytes) (hF : Headers) (f : File)
    (hfin : t final none = .ok (.Code bytes hF))
    (hbuild : build_remote_file final bytes hF = .ok f) :
    ∀ (hops : List (String × Headers)) (cache : HttpCache) (fuel : Nat),
      IsRedirectChain t ri hops final →
      (∀ x ∈ chainSpecs hops ++ [final], HttpCache.get cache x = none) →
      (chainSpecs hops ++ [final]).Nodup →
      (∀ x ∈ chainSpecs hops ++ [final], perm x = true) →
      hops.length + 1 ≤ fuel →
      fetch_remote_fuel t ri cfg perm fuel cache (chainNext hops final) =
        (.ok f, persistChain cache hops final hF bytes) := by
  intro hops
  induction hops with
  | nil =>
    intro cache fuel _ hfresh _ hperm hfuel
    obtain ⟨k, rfl⟩ : ∃ k, fuel = k + 1 := ⟨fuel - 1, by omega⟩
    have hget : HttpCache.get cache final = none := hfresh final (by simp)
    have hpf : perm final = true := hperm final (by simp)
    have hcc : fetch_cached_fuel ri cache (k + 1) final = .ok none := by
      simp [fetch_cached_fuel, hget]
    simp only [chainNext, persistChain]
    cases hsu : CacheSetting.should_use cfg.cache_setting final <;>
      simp [fetch_remote_fuel, hpf, hsu, hcc, hOnly, hget, hfin, hbuild]
  | cons hop rest ih =>
    intro cache fuel hchain hfresh hnodup hperm hfuel
    obtain ⟨s, h⟩ := hop
    obtain ⟨k, rfl⟩ : ∃ k, fuel = k + 1 := ⟨fuel - 1, by omega⟩
    obtain ⟨ht, _, hrest⟩ := hchain
    have hmem : ∀ x, x ∈ chainSpecs rest ++ [final] →
        x ∈ chainSpecs ((s, h) :: rest) ++ [final] := by
      intro x hx; simp only [chainSpecs, List.map_cons, List.cons_append]
      exact List.mem_cons_of_mem s hx
    have hs_fresh : HttpCache.get cache s = none :=
      hfresh s (by simp [chainSpecs])
    have hps : perm s = true := hperm s (by simp [chainSpecs])
    have hnd : s ∉ chainSpecs rest ++ [final] ∧ (chainSpecs rest ++ [final]).Nodup := by
      simpa [chainSpecs] using hnodup
    have hcc : fetch_cached_fuel ri cache (k + 1) s = .ok none := by
      simp [fetch_cached_fuel, hs_fresh]
    have IH := ih (HttpCache.set cache s h []) k hrest
      (by
        intro x hx
        have hxs : x ≠ s := fun he => hnd.1 (he ▸ hx)
        rw [HttpCache.get_set_ne cache s h [] x hxs]
        exact hfresh x (hmem x hx))
      hnd.2
      (fun x hx => hperm x (hmem x hx))
      (by simp at hfuel ⊢; omega)
    simp only [chainNext, persistChain]
    cases hsu : CacheSetting.should_use cfg.cache_setting s <;>
      simp [fetch_remote_fuel, hps, hsu, hcc, hOnly, hs_fresh, ht, IH]

theorem chainRemoteFail (t : Transport) (ri : ResolveImport) (cfg : FetcherConfig)
    (perm : Permissions) (hOnly : cfg.cache_setting ≠ .Only) (final : String) :
    ∀ (hops : List (String × Headers)) (cache : HttpCache) (fuel : Nat),
      IsRedirectChain t ri hops final →
      (∀ x ∈ chainSpecs hops ++ [final], HttpCache.get cache x = none) →
      (chainSpecs hops ++ [final]).Nodup →
      (∀ x ∈ chainSpecs hops ++ [final], perm x = true) →
      fuel ≤ hops.length →
      (fetch_remote_fuel t ri cfg perm fuel cache (chainNext hops final)).1 =
        .error .tooManyRedirects := by
  intro hops
  induction hops with
  | nil =>
    intro cache fuel _ _ _ _ hfuel
    have : fuel = 0 := by simpa using hfuel
    subst this
    simp [fetch_remote_fuel]
  | cons hop rest ih =>
    intro cache fuel hchain hfresh hnodup hperm hfuel
    obtain ⟨s, h⟩ := hop
    cases fuel with
    | zero => simp [fetch_remote_fuel]
    | succ k =>
      obtain ⟨ht, _, hrest⟩ := hchain
      have hmem : ∀ x, x ∈ chainSpecs rest ++ [final] →
          x ∈ chainSpecs ((s, h) :: rest) ++ [final] := by
        intro x hx; simp only [chainSpecs, List.map_cons, List.cons_append]
        exact List.mem_cons_of_mem s hx
      have hs_fresh : HttpCache.get cache s = none :=
        hfresh s (by simp [chainSpecs])
      have hps : perm s = true := hperm s (by simp [chainSpecs])
      have hnd : s ∉ chainSpecs rest ++ [final] ∧ (chainSpecs rest ++ [final]).Nodup := by
        simpa [chainSpecs] using hnodup
      have hcc : fetch_cached_fuel ri cache (k + 1) s = .ok none := by
        simp [fetch_cached_fuel, hs_fresh]
      have IH := ih (HttpCache.set cache s h []) k hrest
        (by
          intro x hx
          have hxs : x ≠ s := fun he => hnd.1 (he ▸ hx)
          rw [HttpCache.get_set_ne cache s h [] x hxs]
          exact hfresh x (hmem x hx))
        hnd.2
        (fun x hx => hperm x (hmem x hx))
        (by simp at hfuel ⊢; omega)
      simp only [chainNext]
      cases hsu : CacheSetting.should_use cfg.cache_setting s <;>
        simp [fetch_remote_fuel, hps, hsu, hcc, hOnly, hs_fresh, ht, IH]

theorem chainCachedOk (t : Transport) (ri : ResolveImport)
    (final : String) (bytes : Bytes) (hF : Headers) (f : File)
    (hloc : Headers.get hF "location" = none)
    (hbuild : build_remote_file final bytes hF = .ok f) :
    ∀ (hops : List (String × Headers)) (cache : HttpCache) (fuel : Nat),
      IsRedirectChain t ri hops final →
      (chainSpecs hops ++ [final]).Nodup →
      hops.length + 1 ≤ fuel →
      fetch_cached_fuel ri (persistChain cache hops final hF bytes) fuel
        (chainNext hops final) = .ok (some f) := by
  intro hops
  induction hops with
  | nil =>
    intro cache fuel _ _ hfuel
    obtain ⟨k, rfl⟩ : ∃ k, fuel = k + 1 := ⟨fuel - 1, by omega⟩
    simp only [chainNext, persistChain]
    simp [fetch_cached_fuel, HttpCache.get_set_self, hloc, hbuild]
  | cons hop rest ih =>
    intro cache fuel hchain hnodup hfuel
    obtain ⟨s, h⟩ := hop
    obtain ⟨k, rfl⟩ : ∃ k, fuel = k + 1 := ⟨fuel - 1, by omega⟩
    obtain ⟨_, ⟨loc, hlget, hlres⟩, hrest⟩ := hchain
    have hnd : s ∉ chainSpecs rest ++ [final] ∧ (chainSpecs rest ++ [final]).Nodup := by
      simpa [chainSpecs] using hnodup
    have hsr : s ∉ chainSpecs rest := fun hm => hnd.1 (List.mem_append_left _ hm)
    have hsf : s ≠ final := fun he => hnd.1 (by simp [he])
    have hgets : HttpCache.get (persistChain (HttpCache.set cache s h []) rest final hF bytes) s =
        some (h, []) := by
      rw [persistChain_get_of_not_mem rest final hF bytes _ s hsr hsf]
      exact HttpCache.get_set_self cache s h []
    have IH := ih (HttpCache.set cache s h []) k hrest hnd.2 (by simp at hfuel ⊢; omega)
    simp only [chainNext, persistChain]
    simp [fetch_cached_fuel, hgets, hlget, hlres, IH]

theorem chainCachedFail (t : Transport) (ri : ResolveImport)
    (final : String) (hF : Headers) (bytes : Bytes) :
    ∀ (hops : List (String × Headers)) (cache : HttpCache) (fuel : Nat),
      IsRedirectChain t ri hops final →
      (chainSpecs hops ++ [final]).Nodup →
      fuel ≤ hops.length →
      fetch_cached_fuel ri (persistChain cache hops final hF bytes) fuel
        (chainNext hops final) = .error .tooManyRedirects := by
  intro hops
  induction hops with
  | nil =>
    intro cache fuel _ _ hfuel
    have : fuel = 0 := by simpa using hfuel
    subst this
    simp [fetch_cached_fuel]
  | cons hop rest ih =>
    intro cache fuel hchain hnodup hfuel
    obtain ⟨s, h⟩ := hop
    cases fuel with
    | zero => simp [fetch_cached_fuel]
    | succ k =>
      obtain ⟨_, ⟨loc, hlget, hlres⟩, hrest⟩ := hchain
      have hnd : s ∉ chainSpecs rest ++ [final] ∧ (chainSpecs rest ++ [final]).Nodup := by
        simpa [chainSpecs] using hnodup
      have hsr : s ∉ chainSpecs rest := fun hm => hnd.1 (List.mem_append_left _ hm)
      have hsf : s ≠ final := fun he => hnd.1 (by simp [he])
      have hgets : HttpCache.get (persistChain (HttpCache.set cache s h []) rest final hF bytes) s =
          some (h, []) := by
        rw [persistChain_get_of_not_mem rest final hF bytes _ s hsr hsf]
        exact HttpCache.get_set_self cache s h []
      have IH := ih (HttpCache.set cache s h []) k hrest hnd.2 (by simp at hfuel ⊢; omega)
      simp only [chainNext, persistChain]
      simp [fetch_cached_fuel, hgets, hlget, hlres, IH]

/-- The ancestor sequence of a path: the path itself, then the results of
iteratively removing the last path segment (`pathParentL`) until none is
left.  The fuel `cs.length` is always enough (`pathParentL_length`); this is
the sequence of strings the `should_use` loop compares against the reload
list. -/
def ancestorsGo : Nat → List Char → List (List Char)
  | 0, cs => [cs]
  | fuel + 1, cs =>
    cs ::
      (match pathParentL cs with
       | none => []
       | some p => ancestorsGo fuel p)

def ancestors (s : String) : List String :=
  (ancestorsGo s.toList.length s.toList).map List.asString

theorem shouldUseGo_eq_ancestors (list : List String) :
    ∀ (fuel : Nat) (cs : List Char),
      shouldUseGo list (fuel + 1) cs =
        !((ancestorsGo fuel cs).any (fun a => list.contains a.asString)) := by
  intro fuel
  induction fuel with
  | zero =>
    intro cs
    have hun : shouldUseGo list 1 cs =
        if list.contains cs.asString then false
        else
          match pathParentL cs with
          | none => true
          | some p => shouldUseGo list 0 p := rfl
    rw [hun]
    cases hlc : list.contains cs.asString with
    | true => simp at hlc; simp [ancestorsGo, hlc]
    | false =>
      simp at hlc
      cases hp : pathParentL cs with
      | none => simp [ancestorsGo, hp, hlc]
      | some p => simp [ancestorsGo, hp, hlc, shouldUseGo]
  | succ n ih =>
    intro cs
    have hun : shouldUseGo list (n + 1 + 1) cs =
        if list.contains cs.asString then false
        else
          match pathParentL cs with
          | none => true
          | some p => shouldUseGo list (n + 1) p := rfl
    rw [hun]
    cases hlc : list.contains cs.asString with
    | true => simp at hlc; simp [ancestorsGo, hlc]
    | false =>
      simp at hlc
      cases hp : pathParentL cs with
      | none => simp [ancestorsGo, hp, hlc]
      | some p => simp [ancestorsGo, hp, hlc, ih p]

theorem strToListAppend (a b : String) : (a ++ b).toList = a.toList ++ b.toList := by
  cases a; cases b; rfl

theorem asStringCons (c : Char) (b : String) :
    (c :: b.toList).asString = String.mk [c] ++ b := by
  cases b; rfl

theorem dropWhileAppendAll (p : Char → Bool) (l1 l2 : List Char)
    (h : ∀ a ∈ l1, p a = true) :
    (l1 ++ l2).dropWhile p = l2.dropWhile p := by
  induction l1 with
  | nil => rfl
  | cons a l ih =>
    simp only [List.cons_append, List.dropWhile_cons, h a (by simp)]
    exact ih (fun x hx => h x (by simp [hx]))

/-- C2 (amended): for text that starts with `#!` and contains a newline,
`strip_shebang` removes the characters before (but not including) the first
newline; with no newline it clears the text; text not starting with `#!` is
returned unchanged. -/
theorem c2_strip_shebang :
    (∀ line body : String, '\n' ∉ line.toList →
      strip_shebang ("#!" ++ line ++ "\n" ++ body) = "\n" ++ body) ∧
    (∀ w : String, '\n' ∉ w.toList → strip_shebang ("#!" ++ w) = "") ∧
    (∀ v : String, v.toList.take 2 ≠ ['#', '!'] → strip_shebang v = v) := by
  refine ⟨?_, ?_, ?_⟩
  · intro line body h
    have htl : ("#!" ++ line ++ "\n" ++ body).toList =
        '#' :: '!' :: (line.toList ++ '\n' :: body.toList) := by
      simp [strToListAppend]
    have hall : ∀ a ∈ '#' :: '!' :: line.toList, (fun c => decide (c ≠ '\n')) a = true := by
      intro a ha
      simp only [List.mem_cons] at ha
      rcases ha with rfl | rfl | ha <;> simp_all
      intro he; exact h (he ▸ ha)
    have hdrop : ('#' :: '!' :: (line.toList ++ '\n' :: body.toList)).dropWhile
        (fun c => decide (c ≠ '\n')) = '\n' :: body.toList := by
      have : '#' :: '!' :: (line.toList ++ '\n' :: body.toList) =
          ('#' :: '!' :: line.toList) ++ ('\n' :: body.toList) := by simp
      rw [this, dropWhileAppendAll _ _ _ hall]
      simp [List.dropWhile_cons]
    have hcont : ('#' :: '!' :: (line.toList ++ '\n' :: body.toList)).contains '\n' = true := by
      simp
    unfold strip_shebang
    rw [htl]
    simp only [hcont, if_true, hdrop]
    exact asStringCons '\n' body
  · intro w h
    have htl : ("#!" ++ w).toList = '#' :: '!' :: w.toList := by
      simp [strToListAppend]
    have hcont : ('#' :: '!' :: w.toList).contains '\n' = false := by
      simp; exact h
    unfold strip_shebang
    rw [htl]
    simp only [hcont, Bool.false_eq_true, if_false]
  · intro v h
    unfold strip_shebang
    split
    next heq =>
      refine absurd ?_ h
      simp only [String.toList] at heq ⊢
      simp [heq]
    next => rfl

/-- C2 counterexample: on the claim's own example the code keeps the first
newline: `strip_shebang "#!/usr/bin/env x\nbody"` is `"\nbody"`, not
`"body"`. -/
theorem c2_counterexample :
    strip_shebang "#!/usr/bin/env x\nbody" = "\nbody" ∧
    strip_shebang "#!/usr/bin/env x\nbody" ≠ "body" := by
  constructor
  · rfl
  · decide

theorem c2_witness :
    strip_shebang ("#!" ++ "/usr/bin/env x" ++ "\n" ++ "body") = "\n" ++ "body" ∧
    strip_shebang ("#!" ++ "noeol") = "" ∧
    strip_shebang "body" = "body" :=
  ⟨c2_strip_shebang.1 "/usr/bin/env x" "body" (by decide),
   c2_strip_shebang.2.1 "noeol" (by decide),
   c2_strip_shebang.2.2 "body" (by decide)⟩

theorem utf8Decode_highByte {b : Nat} (l : List Nat) (hb : 0xF5 ≤ b) :
    utf8Decode (b :: l) = none := by
  unfold utf8Decode utf8DecodeAux
  rw [if_neg (by omega), if_neg (by omega), if_neg (by omega), if_neg (by omega),
    if_neg (by omega)]

/-- C3 (amended): for every byte sequence beginning with the UTF-16LE
byte-order mark, decoding with the auto-detected charset — the composition
`detect_charset` / `get_source_from_bytes` used on the local-file path —
yields the same text as an explicit `"utf-16le"` declaration; but
`build_remote_file` with a content-type header carrying no charset parameter
does not auto-detect: the bytes are decoded as strict UTF-8 and such a
sequence fails with a decode error. -/
theorem c3_bom_detection :
    (∀ (bytes : Bytes) (rest : List Nat), bytes = 0xFF :: 0xFE :: rest →
      get_source_from_bytes bytes (some (detect_charset bytes)) =
        get_source_from_bytes bytes (some "utf-16le")) ∧
    (∀ (bytes : Bytes) (rest : List Nat) (headers : Headers) (specifier : String),
      bytes = 0xFF :: 0xFE :: rest →
      Headers.get headers "content-type" = some "application/typescript" →
      build_remote_file specifier bytes headers = .error .decodeError) := by
  constructor
  · intro bytes rest hb
    subst hb
    have hdet : detect_charset (0xFF :: 0xFE :: rest) = "utf-16le" := by
      simp [detect_charset]
    rw [hdet]
  · intro bytes rest headers specifier hb hct
    subst hb
    have hcs : (map_content_type specifier (some "application/typescript")).2 = none := rfl
    have h255 : utf8Decode (0xFF :: 0xFE :: rest) = none :=
      utf8Decode_highByte (0xFE :: rest) (by norm_num)
    have hdec : get_source_from_bytes (0xFF :: 0xFE :: rest) none = .error .decodeError := by
      simp [get_source_from_bytes, h255]
    simp [build_remote_file, hct, hcs, hdec]

/-- C3 counterexample: the original claim fails on the remote-file path.  For
the UTF-16LE-BOM bytes `FF FE 61 00`, decoding with no declared charset
errors instead of agreeing with the explicit `"utf-16le"` decoding, and
`build_remote_file` under a charset-free content type propagates that decode
error. -/
theorem c3_counterexample :
    get_source_from_bytes [0xFF, 0xFE, 0x61, 0x00] none = .error .decodeError ∧
    get_source_from_bytes [0xFF, 0xFE, 0x61, 0x00] (some "utf-16le") = .ok "﻿a" ∧
    get_source_from_bytes [0xFF, 0xFE, 0x61, 0x00] none ≠
      get_source_from_bytes [0xFF, 0xFE, 0x61, 0x00] (some "utf-16le") ∧
    build_remote_file "https://deno.land/x/mod.ts" [0xFF, 0xFE, 0x61, 0x00]
      [("content-type", "application/typescript")] = .error .decodeError := by
  refine ⟨rfl, rfl, ?_, rfl⟩
  decide

theorem c3_witness :
    get_source_from_bytes [0xFF, 0xFE, 0x61, 0x00]
        (some (detect_charset [0xFF, 0xFE, 0x61, 0x00])) =
      get_source_from_bytes [0xFF, 0xFE, 0x61, 0x00] (some "utf-16le") ∧
    build_remote_file "https://deno.land/x/mod.ts" [0xFF, 0xFE, 0x61, 0x00]
      [("content-type", "application/typescript")] = .error .decodeError :=
  ⟨c3_bom_detection.1 [0xFF, 0xFE, 0x61, 0x00] [0x61, 0x00] rfl,
   c3_bom_detection.2 [0xFF, 0xFE, 0x61, 0x00] [0x61, 0x00]
     [("content-type", "application/typescript")] "https://deno.land/x/mod.ts" rfl rfl⟩

/-- C7: `should_use` is `false` for every specifier under `ReloadAll`, `true`
under `Use` and `Only`, and under `ReloadSome list` it is `false` exactly
when the fragment-stripped specifier is a list entry, or the
fragment-and-query-stripped string or one of its ancestors (obtained by
iteratively removing the last path segment) is a list entry — exact string
equality; in particular `ReloadSome ["https://h/std"]` reloads
`"https://h/std/mod.ts"` but not `"https://h/other.ts"`. -/
theorem c7_should_use :
    (∀ s, CacheSetting.should_use .ReloadAll s = false) ∧
    (∀ s, CacheSetting.should_use .Use s = true) ∧
    (∀ s, CacheSetting.should_use .Only s = true) ∧
    (∀ (list : List String) (s : String),
      CacheSetting.should_use (.ReloadSome list) s = false ↔
        (stripFragment s ∈ list ∨
          ∃ a ∈ ancestors (stripQuery (stripFragment s)), a ∈ list)) ∧
    CacheSetting.should_use (.ReloadSome ["https://h/std"]) "https://h/std/mod.ts" = false ∧
    CacheSetting.should_use (.ReloadSome ["https://h/std"]) "https://h/other.ts" = true := by
  refine ⟨fun s => rfl, fun s => rfl, fun s => rfl, ?_, by decide, by decide⟩
  intro list s
  simp only [CacheSetting.should_use]
  by_cases hc : stripFragment s ∈ list
  · simp [hc]
  · have hcb : list.contains (stripFragment s) = false := by simpa using hc
    simp only [hcb, Bool.false_eq_true, if_false]
    rw [shouldUseGo_eq_ancestors]
    simp [ancestors, hc]

/-- C8: the `.d.ts` refinement applies only to a TypeScript MIME default:
`mod.d.ts` under `application/javascript` classifies as JavaScript, a `ts`
extension yields TypeDeclaration exactly when the default is TypeScript and
the file stem ends in `.d` (and is otherwise left at the default), `jsx` and
`tsx` always override to JSX / TSX, and any other or missing extension
leaves the MIME-derived default unchanged. -/
theorem map_js_like_extension_eq (s : String) (d : MediaType) :
    map_js_like_extension s d =
      match extension (fileName (urlPath s)) with
      | none => d
      | some "jsx" => MediaType.JSX
      | some "tsx" => MediaType.TSX
      | some "ts" =>
        if d = MediaType.TypeScript then
          if listEndsWith (fileStem (fileName (urlPath s))).toList ".d".toList then MediaType.Dts
          else d
        else d
      | some _ => d := rfl

theorem map_js_like_extension_ts (s : String) (d : MediaType)
    (h : extension (fileName (urlPath s)) = some "ts") :
    map_js_like_extension s d =
      if d = MediaType.TypeScript then
        if listEndsWith (fileStem (fileName (urlPath s))).toList ".d".toList then MediaType.Dts
        else d
      else d := by
  rw [map_js_like_extension_eq, h]
  rfl

/-- C8: the `.d.ts` refinement applies only to a TypeScript MIME default:
`mod.d.ts` under `application/javascript` classifies as JavaScript, a `ts`
extension yields TypeDeclaration exactly when the default is TypeScript and
the file stem ends in `.d` (and is otherwise left at the default), `jsx` and
`tsx` always override to JSX / TSX, and any other or missing extension
leaves the MIME-derived default unchanged. -/
theorem c8_extension_refinement :
    (map_content_type "https://deno.land/x/mod.d.ts" (some "application/javascript") =
      (MediaType.JavaScript, none)) ∧
    (∀ s d, extension (fileName (urlPath s)) = some "jsx" →
      map_js_like_extension s d = .JSX) ∧
    (∀ s d, extension (fileName (urlPath s)) = some "tsx" →
      map_js_like_extension s d = .TSX) ∧
    (∀ s d, extension (fileName (urlPath s)) = some "ts" →
      ((d = .TypeScript ∧
          listEndsWith (fileStem (fileName (urlPath s))).toList ".d".toList = true) →
        map_js_like_extension s d = .Dts) ∧
      (map_js_like_extension s d ≠ d →
        d = .TypeScript ∧
        listEndsWith (fileStem (fileName (urlPath s))).toList ".d".toList = true ∧
        map_js_like_extension s d = .Dts)) ∧
    (∀ s d e, extension (fileName (urlPath s)) = some e →
      e ∉ (["jsx", "tsx", "ts"] : List String) → map_js_like_extension s d = d) ∧
    (∀ s d, extension (fileName (urlPath s)) = none → map_js_like_extension s d = d) := by
  refine ⟨by decide, ?_, ?_, ?_, ?_, ?_⟩
  · intro s d h
    rw [map_js_like_extension_eq, h]
    rfl
  · intro s d h
    rw [map_js_like_extension_eq, h]
    rfl
  · intro s d h
    constructor
    · rintro ⟨rfl, hsb⟩
      rw [map_js_like_extension_ts s _ h, if_pos rfl, if_pos hsb]
    · intro hne
      rw [map_js_like_extension_ts s _ h] at hne
      by_cases hd : d = MediaType.TypeScript
      · subst hd
        by_cases hsb :
            listEndsWith (fileStem (fileName (urlPath s))).toList ".d".toList = true
        · exact ⟨rfl, hsb, by rw [map_js_like_extension_ts s _ h, if_pos rfl, if_pos hsb]⟩
        · rw [if_pos rfl, if_neg hsb] at hne
          exact absurd rfl hne
      · rw [if_neg hd] at hne
        exact absurd rfl hne
  · intro s d e h he
    have h1 : e ≠ "jsx" := by intro x; subst x; simp at he
    have h2 : e ≠ "tsx" := by intro x; subst x; simp at he
    have h3 : e ≠ "ts" := by intro x; subst x; simp at he
    rw [map_js_like_extension_eq, h]
    split <;> simp_all
  · intro s d h
    rw [map_js_like_extension_eq, h]

theorem c8_witness :
    map_js_like_extension "https://deno.land/x/mod.jsx" MediaType.TypeScript = .JSX ∧
    map_js_like_extension "https://deno.land/x/mod.tsx" MediaType.JavaScript = .TSX ∧
    map_js_like_extension "https://deno.land/x/mod.d.ts" MediaType.TypeScript = .Dts ∧
    map_js_like_extension "https://deno.land/x/mod.json" MediaType.JavaScript =
      MediaType.JavaScript ∧
    map_js_like_extension "https://deno.land/x/mod" MediaType.TypeScript =
      MediaType.TypeScript :=
  ⟨c8_extension_refinement.2.1 "https://deno.land/x/mod.jsx" MediaType.TypeScript (by decide),
   c8_extension_refinement.2.2.1 "https://deno.land/x/mod.tsx" MediaType.JavaScript (by decide),
   (c8_extension_refinement.2.2.2.1 "https://deno.land/x/mod.d.ts" MediaType.TypeScript
     (by decide)).1 ⟨rfl, by decide⟩,
   c8_extension_refinement.2.2.2.2.1 "https://deno.land/x/mod.json" MediaType.JavaScript
     "json" (by decide) (by decide),
   c8_extension_refinement.2.2.2.2.2 "https://deno.land/x/mod" MediaType.TypeScript (by decide)⟩

/-- C4: a fetch for a specifier in the in-memory cache returns the stored
File without filesystem, network or persistent-cache work (the result and
both cache states are independent of the filesystem and the transport), but
scheme validation and the permission check run before the cache lookup on
every call: an unsupported scheme or a denied permission fails even for a
cached specifier. -/
theorem c4_validation_before_cache :
    (∀ (fs : FileSystem) (t : Transport) (ri : ResolveImport) (cfg : FetcherConfig)
        (perm : Permissions) (cache : FileCache) (http : HttpCache)
        (s sch : String) (f : File),
      get_validated_scheme s = .ok sch → perm s = true →
      FileCache.get cache s = some f →
      fetch fs t ri cfg perm cache http s = (.ok f, cache, http)) ∧
    (∀ fs t ri cfg perm cache http s e,
      get_validated_scheme s = .error e →
      fetch fs t ri cfg perm cache http s = (.error e, cache, http)) ∧
    (∀ fs t ri cfg perm cache http s sch,
      get_validated_scheme s = .ok sch → perm s = false →
      fetch fs t ri cfg perm cache http s = (.error (.permissionDenied s), cache, http)) := by
  refine ⟨?_, ?_, ?_⟩
  · intro fs t ri cfg perm cache http s sch f h1 h2 h3
    simp [fetch, h1, h2, h3]
  · intro fs t ri cfg perm cache http s e h1
    simp [fetch, h1]
  · intro fs t ri cfg perm cache http s sch h1 h2
    simp [fetch, h1, h2]

def permAllW : Permissions := fun _ => true

def fsFailW : FileSystem := fun _ => .error .ioError

def fsHelloW : FileSystem := fun _ => .ok [101]

def tFailW : Transport := fun _ _ => .error .transportError

def riW : ResolveImport := fun loc _ => .ok loc

def cfgUseW : FetcherConfig := ⟨true, .Use⟩

def fileA : File := ⟨"deps/https://h/a.ts", none, .TypeScript, "x", "https://h/a.ts"⟩

def fileFtp : File := ⟨"x", none, .TypeScript, "x", "ftp://h/a.ts"⟩

def fileLocalA : File := ⟨"/a.ts", none, .TypeScript, "e", "file:///a.ts"⟩

theorem c4_witness :
    get_validated_scheme "https://h/a.ts" = .ok "https" ∧
    fetch fsFailW tFailW riW cfgUseW permAllW [("https://h/a.ts", fileA)] [] "https://h/a.ts" =
      (.ok fileA, [("https://h/a.ts", fileA)], []) ∧
    fetch fsFailW tFailW riW cfgUseW permAllW [("ftp://h/a.ts", fileFtp)] [] "ftp://h/a.ts" =
      (.error (.unsupportedScheme "ftp"), [("ftp://h/a.ts", fileFtp)], []) ∧
    fetch fsFailW tFailW riW cfgUseW (fun _ => false) [("https://h/a.ts", fileA)] []
        "https://h/a.ts" =
      (.error (.permissionDenied "https://h/a.ts"), [("https://h/a.ts", fileA)], []) :=
  ⟨by decide,
   c4_validation_before_cache.1 fsFailW tFailW riW cfgUseW permAllW _ _
     "https://h/a.ts" "https" fileA (by decide) rfl (by decide),
   c4_validation_before_cache.2.1 fsFailW tFailW riW cfgUseW permAllW _ _
     "ftp://h/a.ts" _ (by decide),
   c4_validation_before_cache.2.2 fsFailW tFailW riW cfgUseW (fun _ => false) _ _
     "https://h/a.ts" "https" (by decide) rfl⟩

/-- C6: a successful fetch leaves the resulting File in the in-memory cache
under the originally requested specifier (whatever the File's own
`specifier` field is) and does not disturb other keys; a failed fetch leaves
the in-memory cache exactly as it was. -/
theorem c6_memory_cache_on_result :
    (∀ fs t ri cfg perm cache http s f cache2 http2,
      fetch fs t ri cfg perm cache http s = (.ok f, cache2, http2) →
      FileCache.get cache2 s = some f ∧
      ∀ s2, s2 ≠ s → FileCache.get cache2 s2 = FileCache.get cache s2) ∧
    (∀ fs t ri cfg perm cache http s e cache2 http2,
      fetch fs t ri cfg perm cache http s = (.error e, cache2, http2) →
      cache2 = cache) := by
  constructor
  · intro fs t ri cfg perm cache http s f cache2 http2 h
    unfold fetch at h
    split at h
    · exact absurd h (by simp)
    · split at h
      · split at h
        next file hc =>
          simp only [Prod.mk.injEq, Except.ok.injEq] at h
          obtain ⟨rfl, rfl, rfl⟩ := h
          exact ⟨hc, fun s2 _ => rfl⟩
        next hc =>
          split at h
          next file http3 hd =>
            simp only [Prod.mk.injEq, Except.ok.injEq] at h
            obtain ⟨rfl, rfl, rfl⟩ := h
            exact ⟨FileCache.get_insert_self cache s _,
              fun s2 hs2 => FileCache.get_insert_ne cache s _ s2 hs2⟩
          next e http3 hd => exact absurd h (by simp)
      · exact absurd h (by simp)
  · intro fs t ri cfg perm cache http s e cache2 http2 h
    unfold fetch at h
    split at h
    · simp only [Prod.mk.injEq] at h
      exact h.2.1.symm
    · split at h
      · split at h
        next file hc => exact absurd h (by simp)
        next hc =>
          split at h
          next file http3 hd => exact absurd h (by simp)
          next e2 http3 hd =>
            simp only [Prod.mk.injEq] at h
            exact h.2.1.symm
      · simp only [Prod.mk.injEq] at h
        exact h.2.1.symm

theorem c6_witness :
    (FileCache.get [("file:///a.ts", fileLocalA)] "file:///a.ts" = some fileLocalA ∧
      ∀ s2, s2 ≠ "file:///a.ts" →
        FileCache.get [("file:///a.ts", fileLocalA)] s2 =
          FileCache.get ([] : FileCache) s2) ∧
    ([] : FileCache) = ([] : FileCache) := by
  constructor
  · exact c6_memory_cache_on_result.1 fsHelloW tFailW riW cfgUseW permAllW [] []
      "file:///a.ts" fileLocalA [("file:///a.ts", fileLocalA)] [] (by decide)
  · exact c6_memory_cache_on_result.2 fsFailW tFailW riW cfgUseW permAllW [] []
      "file:///a.ts" .ioError [] [] (by decide)

/-- C10: an in-memory cache hit bypasses both the `allow_remote` check and
the cache-setting policy: for an http/https specifier already present in the
in-memory cache (for example via `insert_cached`), fetch returns the stored
File for every configuration — also with remote fetching disabled, where a
miss fails with the no-remote error, and also under `ReloadAll` — and
touches neither the transport nor the persistent cache. -/
theorem c10_memory_hit_bypasses_policy :
    (∀ (fs : FileSystem) (t : Transport) (ri : ResolveImport) (cfg : FetcherConfig)
        (perm : Permissions) (cache : FileCache) (http : HttpCache)
        (s sch : String) (f : File),
      get_validated_scheme s = .ok sch → sch ≠ "file" → perm s = true →
      FileCache.get cache s = some f →
      fetch fs t ri cfg perm cache http s = (.ok f, cache, http)) ∧
    (∀ fs t ri cfg perm cache http s sch,
      get_validated_scheme s = .ok sch → sch ≠ "file" → perm s = true →
      FileCache.get cache s = none → cfg.allow_remote = false →
      fetch fs t ri cfg perm cache http s = (.error (.noRemote s), cache, http)) ∧
    (∀ (cache : FileCache) (f : File),
      FileCache.get (insert_cached cache f) f.specifier = some f) := by
  refine ⟨?_, ?_, ?_⟩
  · intro fs t ri cfg perm cache http s sch f h1 _ h3 h4
    simp [fetch, h1, h3, h4]
  · intro fs t ri cfg perm cache http s sch h1 h2 h3 h4 h5
    simp [fetch, fetchDispatch, h1, h2, h3, h4, h5]
  · intro cache f
    exact FileCache.get_insert_self cache f.specifier f

theorem c10_witness :
    fetch fsFailW tFailW riW ⟨false, .ReloadAll⟩ permAllW [("https://h/a.ts", fileA)] []
        "https://h/a.ts" =
      (.ok fileA, [("https://h/a.ts", fileA)], []) ∧
    fetch fsFailW tFailW riW ⟨false, .Use⟩ permAllW [] [] "https://h/a.ts" =
      (.error (.noRemote "https://h/a.ts"), [], []) :=
  ⟨c10_memory_hit_bypasses_policy.1 fsFailW tFailW riW ⟨false, .ReloadAll⟩ permAllW _ _
     "https://h/a.ts" "https" fileA (by decide) (by decide) rfl (by decide),
   c10_memory_hit_bypasses_policy.2.1 fsFailW tFailW riW ⟨false, .Use⟩ permAllW _ _
     "https://h/a.ts" "https" (by decide) (by decide) rfl (by decide) rfl⟩

/-- C9: on the not-modified branch of `fetch_remote` the `fetch_cached`
result is unwrapped without a `None` case: when the transport reports
not-modified for a specifier with no persistent-cache entry, `fetch_remote`
panics (modelled by the distinguished `panicUnwrapNone` outcome) instead of
returning an error; the unwrap is safe exactly under the precondition that a
cached entry exists whose redirect chain resolves within the fresh budget
of 10, in which case the cached File is returned. -/
theorem c9_not_modified_unwrap :
    (∀ (t : Transport) (ri : ResolveImport) (cfg : FetcherConfig) (perm : Permissions)
        (http : HttpCache) (s : String) (limit : Int),
      0 ≤ limit → perm s = true → cfg.cache_setting ≠ .Only →
      HttpCache.get http s = none →
      t s none = .ok .NotModified →
      (fetch_remote t ri cfg perm http s limit).1 = .error .panicUnwrapNone) ∧
    (∀ (t : Transport) (ri : ResolveImport) (cfg : FetcherConfig) (perm : Permissions)
        (http : HttpCache) (s : String) (limit : Int) (hs : Headers) (bs : Bytes) (f : File),
      0 ≤ limit → perm s = true →
      CacheSetting.should_use cfg.cache_setting s = false → cfg.cache_setting ≠ .Only →
      HttpCache.get http s = some (hs, bs) →
      t s (Headers.get hs "etag") = .ok .NotModified →
      fetch_cached ri http s 10 = .ok (some f) →
      (fetch_remote t ri cfg perm http s limit).1 = .ok f) := by
  constructor
  · intro t ri cfg perm http s limit h0 hperm hOnly hget ht
    have hf : (limit + 1).toNat = limit.toNat + 1 := by omega
    have hcc : fetch_cached_fuel ri http (limit.toNat + 1) s = .ok none := by
      simp [fetch_cached_fuel, hget]
    have h11 : fetch_cached_fuel ri http 11 s = .ok none := by
      have he : (11 : Nat) = 10 + 1 := rfl
      rw [he]
      simp [fetch_cached_fuel, hget]
    unfold fetch_remote
    rw [hf]
    cases hsu : CacheSetting.should_use cfg.cache_setting s <;>
      simp [fetch_remote_fuel, hperm, hsu, hcc, hOnly, hget, ht, h11]
  · intro t ri cfg perm http s limit hs bs f h0 hperm hsu hOnly hget ht hcached
    have hf : (limit + 1).toNat = limit.toNat + 1 := by omega
    have hcf : fetch_cached_fuel ri http 11 s = .ok (some f) := hcached
    unfold fetch_remote
    rw [hf]
    simp [fetch_remote_fuel, hperm, hsu, hOnly, hget, ht, hcf]

theorem c9_witness :
    (fetch_remote (fun _ _ => .ok .NotModified) riW ⟨true, .Use⟩ permAllW []
      "https://h/a.ts" 10).1 = .error .panicUnwrapNone ∧
    (fetch_remote (fun _ _ => .ok .NotModified) riW ⟨true, .ReloadAll⟩ permAllW
      [("https://h/a.ts", [("content-type", "application/javascript")], [101])]
      "https://h/a.ts" 10).1 =
      .ok ⟨"deps/https://h/a.ts", none, .JavaScript, "e", "https://h/a.ts"⟩ :=
  ⟨c9_not_modified_unwrap.1 (fun _ _ => .ok .NotModified) riW ⟨true, .Use⟩ permAllW []
     "https://h/a.ts" 10 (by norm_num) rfl (by decide) rfl rfl,
   c9_not_modified_unwrap.2 (fun _ _ => .ok .NotModified) riW ⟨true, .ReloadAll⟩ permAllW
     [("https://h/a.ts", [("content-type", "application/javascript")], [101])]
     "https://h/a.ts" 10 [("content-type", "application/javascript")] [101]
     ⟨"deps/https://h/a.ts", none, .JavaScript, "e", "https://h/a.ts"⟩
     (by norm_num) rfl rfl (by decide) (by decide) rfl (by decide)⟩

/-- C1: when the transport reports a redirect for a specifier that has no
persisted record, `fetch_remote` first persists a redirect record keyed by
the current specifier (the returned headers, empty body) and then recurses
on the redirect target with `redirect_budget - 1`; and once a whole redirect
chain has been persisted by a successful `fetch_remote`, the network-free
`fetch_cached` on the original source specifier resolves the chain and
returns the same final File as the network fetch did. -/
theorem c1_redirect_persistence_roundtrip :
    (∀ (t : Transport) (ri : ResolveImport) (cfg : FetcherConfig) (perm : Permissions)
        (cache : HttpCache) (s target : String) (h : Headers) (limit : Int),
      0 ≤ limit → perm s = true → HttpCache.get cache s = none →
      cfg.cache_setting ≠ .Only →
      t s none = .ok (.Redirect target h) →
      fetch_remote t ri cfg perm cache s limit =
        fetch_remote t ri cfg perm (HttpCache.set cache s h []) target (limit - 1)) ∧
    (∀ (t : Transport) (ri : ResolveImport) (cfg : FetcherConfig) (perm : Permissions)
        (cache : HttpCache) (hops : List (String × Headers)) (final : String)
        (bytes : Bytes) (hF : Headers) (f : File) (limit : Int),
      cfg.cache_setting ≠ .Only →
      IsRedirectChain t ri hops final →
      t final none = .ok (.Code bytes hF) →
      Headers.get hF "location" = none →
      build_remote_file final bytes hF = .ok f →
      (∀ x ∈ chainSpecs hops ++ [final], HttpCache.get cache x = none) →
      (chainSpecs hops ++ [final]).Nodup →
      (∀ x ∈ chainSpecs hops ++ [final], perm x = true) →
      (hops.length : Int) ≤ limit →
      fetch_remote t ri cfg perm cache (chainNext hops final) limit =
        (.ok f, persistChain cache hops final hF bytes) ∧
      fetch_cached ri (persistChain cache hops final hF bytes)
        (chainNext hops final) limit = .ok (some f)) := by
  constructor
  · intro t ri cfg perm cache s target h limit h0 hperm hget hOnly ht
    have hf : (limit + 1).toNat = limit.toNat + 1 := by omega
    have hf2 : (limit - 1 + 1).toNat = limit.toNat := by omega
    have hcc : fetch_cached_fuel ri cache (limit.toNat + 1) s = .ok none := by
      simp [fetch_cached_fuel, hget]
    unfold fetch_remote
    rw [hf, hf2]
    cases hsu : CacheSetting.should_use cfg.cache_setting s <;>
      simp [fetch_remote_fuel, hperm, hsu, hcc, hOnly, hget, ht]
  · intro t ri cfg perm cache hops final bytes hF f limit hOnly hchain hfin hloc hbuild
      hfresh hnodup hperm hlen
    have h0 : (0 : Int) ≤ limit := le_trans (Int.natCast_nonneg _) hlen
    have hf : (limit + 1).toNat = limit.toNat + 1 := by omega
    have hfuel : hops.length + 1 ≤ limit.toNat + 1 := by omega
    constructor
    · unfold fetch_remote
      rw [hf]
      exact chainRemoteOk t ri cfg perm hOnly final bytes hF f hfin hbuild hops cache
        (limit.toNat + 1) hchain hfresh hnodup hperm hfuel
    · unfold fetch_cached
      rw [hf]
      exact chainCachedOk t ri final bytes hF f hloc hbuild hops cache
        (limit.toNat + 1) hchain hnodup hfuel

/-- C5: both `fetch_remote` and `fetch_cached` fail with the
too-many-redirects error exactly when the decrementing budget goes below
zero: every call with a negative budget fails that way, a redirect chain of
depth 2 succeeds with budget 2 and fails with too-many-redirects with
budget 1, and once the chain is persisted the network-free `fetch_cached`
fails identically for the same budgets. -/
theorem c5_redirect_budget :
    (∀ (t : Transport) (ri : ResolveImport) (cfg : FetcherConfig) (perm : Permissions)
        (http : HttpCache) (s : String) (limit : Int), limit < 0 →
      (fetch_remote t ri cfg perm http s limit).1 = .error .tooManyRedirects) ∧
    (∀ (ri : ResolveImport) (http : HttpCache) (s : String) (limit : Int), limit < 0 →
      fetch_cached ri http s limit = .error .tooManyRedirects) ∧
    (∀ (t : Transport) (ri : ResolveImport) (cfg : FetcherConfig) (perm : Permissions)
        (cache : HttpCache) (hops : List (String × Headers)) (final : String)
        (bytes : Bytes) (hF : Headers) (f : File),
      cfg.cache_setting ≠ .Only →
      IsRedirectChain t ri hops final →
      hops.length = 2 →
      t final none = .ok (.Code bytes hF) →
      Headers.get hF "location" = none →
      build_remote_file final bytes hF = .ok f →
      (∀ x ∈ chainSpecs hops ++ [final], HttpCache.get cache x = none) →
      (chainSpecs hops ++ [final]).Nodup →
      (∀ x ∈ chainSpecs hops ++ [final], perm x = true) →
      (fetch_remote t ri cfg perm cache (chainNext hops final) 2).1 = .ok f ∧
      (fetch_remote t ri cfg perm cache (chainNext hops final) 1).1 =
        .error .tooManyRedirects ∧
      fetch_cached ri (persistChain cache hops final hF bytes) (chainNext hops final) 2 =
        .ok (some f) ∧
      fetch_cached ri (persistChain cache hops final hF bytes) (chainNext hops final) 1 =
        .error .tooManyRedirects) := by
  refine ⟨?_, ?_, ?_⟩
  · intro t ri cfg perm http s limit hneg
    have hz : (limit + 1).toNat = 0 := by omega
    unfold fetch_remote
    rw [hz]
    rfl
  · intro ri http s limit hneg
    have hz : (limit + 1).toNat = 0 := by omega
    unfold fetch_cached
    rw [hz]
    rfl
  · intro t ri cfg perm cache hops final bytes hF f hOnly hchain hlen2 hfin hloc hbuild
      hfresh hnodup hperm
    refine ⟨?_, ?_, ?_, ?_⟩
    · unfold fetch_remote
      rw [show ((2 : Int) + 1).toNat = 3 from by decide]
      rw [chainRemoteOk t ri cfg perm hOnly final bytes hF f hfin hbuild hops cache 3
        hchain hfresh hnodup hperm (by omega)]
    · unfold fetch_remote
      rw [show ((1 : Int) + 1).toNat = 2 from by decide]
      exact chainRemoteFail t ri cfg perm hOnly final hops cache 2 hchain hfresh hnodup
        hperm (by omega)
    · unfold fetch_cached
      rw [show ((2 : Int) + 1).toNat = 3 from by decide]
      exact chainCachedOk t ri final bytes hF f hloc hbuild hops cache 3 hchain hnodup
        (by omega)
    · unfold fetch_cached
      rw [show ((1 : Int) + 1).toNat = 2 from by decide]
      exact chainCachedFail t ri final hF bytes hops cache 2 hchain hnodup (by omega)

/-- A two-hop redirect transport for concrete instantiations (the shape of
the source's `test_fetcher_limits_redirects` fixture). -/
def tChainW : Transport := fun s _ =>
  if s = "http://h/r1" then .ok (.Redirect "http://h/r2" [("location", "http://h/r2")])
  else if s = "http://h/r2" then .ok (.Redirect "http://h/r3" [("location", "http://h/r3")])
  else .ok (.Code [101] [("content-type", "application/javascript")])

def hopsW : List (String × Headers) :=
  [("http://h/r1", [("location", "http://h/r2")]),
   ("http://h/r2", [("location", "http://h/r3")])]

def hdrsFinalW : Headers := [("content-type", "application/javascript")]

def fileW : File := ⟨"deps/http://h/r3", none, .JavaScript, "e", "http://h/r3"⟩

theorem chainW_is_chain : IsRedirectChain tChainW riW hopsW "http://h/r3" :=
  ⟨rfl, ⟨"http://h/r2", rfl, rfl⟩, rfl, ⟨"http://h/r3", rfl, rfl⟩, trivial⟩

theorem c1_witness :
    fetch_remote tChainW riW cfgUseW permAllW [] "http://h/r1" 2 =
      (.ok fileW, persistChain [] hopsW "http://h/r3" hdrsFinalW [101]) ∧
    fetch_cached riW (persistChain [] hopsW "http://h/r3" hdrsFinalW [101])
      "http://h/r1" 2 = .ok (some fileW) ∧
    fetch_remote tChainW riW cfgUseW permAllW [] "http://h/r1" 2 =
      fetch_remote tChainW riW cfgUseW permAllW
        (HttpCache.set [] "http://h/r1" [("location", "http://h/r2")] [])
        "http://h/r2" 1 := by
  have h2 := c1_redirect_persistence_roundtrip.2 tChainW riW cfgUseW permAllW []
    hopsW "http://h/r3" [101] hdrsFinalW fileW 2 (by decide) chainW_is_chain
    (by decide) rfl (by decide) (fun x _ => rfl) (by decide) (fun x _ => rfl)
    (by norm_num [hopsW])
  exact ⟨h2.1, h2.2,
    c1_redirect_persistence_roundtrip.1 tChainW riW cfgUseW permAllW []
      "http://h/r1" "http://h/r2" [("location", "http://h/r2")] 2 (by norm_num)
      rfl rfl (by decide) (by decide)⟩

theorem c5_witness :
    (fetch_remote tChainW riW cfgUseW permAllW [] "http://h/r1" (-1)).1 =
      .error .tooManyRedirects ∧
    fetch_cached riW [] "http://h/r1" (-1) = .error .tooManyRedirects ∧
    (fetch_remote tChainW riW cfgUseW permAllW [] "http://h/r1" 2).1 = .ok fileW ∧
    (fetch_remote tChainW riW cfgUseW permAllW [] "http://h/r1" 1).1 =
      .error .tooManyRedirects ∧
    fetch_cached riW (persistChain [] hopsW "http://h/r3" hdrsFinalW [101])
      "http://h/r1" 2 = .ok (some fileW) ∧
    fetch_cached riW (persistChain [] hopsW "http://h/r3" hdrsFinalW [101])
      "http://h/r1" 1 = .error .tooManyRedirects := by
  have h3 := c5_redirect_budget.2.2 tChainW riW cfgUseW permAllW [] hopsW
    "http://h/r3" [101] hdrsFinalW fileW (by decide) chainW_is_chain
    (by norm_num [hopsW]) (by decide) rfl (by decide) (fun x _ => rfl) (by decide)
    (fun x _ => rfl)
  exact ⟨c5_redirect_budget.1 tChainW riW cfgUseW permAllW [] "http://h/r1" (-1)
      (by norm_num),
    c5_redirect_budget.2.1 riW [] "http://h/r1" (-1) (by norm_num),
    h3.1, h3.2.1, h3.2.2.1, h3.2.2.2⟩

end Deno
